import Mathlib

/-!
# Shallow embedding of `src/main.py` (a minimal educational blockchain)

The Python program implements wallets with idealized ECDSA keys, signed
transactions, proof-of-work sealed blocks, a chain with a wallet registry and
balance updates, and a pending-transaction pool.  This file embeds the program
in Lean and proves the frozen claims about it.

Modelling decisions (each is a standard idealization, noted where used):

* **Numbers.**  Python `float` amounts/fees/balances are modelled as `ℚ`;
  `round(x, 8)` (Python's round-half-to-even) is `pyRound8`.  All concrete
  values appearing in the claims are exactly representable, so the rational
  model and the float program agree on them.

* **Keys and signatures.**  `cryptography`'s P-256 ECDSA is modelled ideally:
  a wallet's key pair is a natural number `k` (the PEM-exported public
  identity is modelled by `k` itself, since the export is injective), a
  signature over payload `d` by key `k` is the pair `(k, d)`, and
  verification succeeds exactly when the signature was produced by the
  claimed key over the same payload.  This is the standard
  "ECDSA verification succeeds only for the signing key over the same
  payload" assumption, which claim C4 itself states.

* **Hashing.**  `hashlib.sha256(json.dumps(...))` is modelled as an abstract
  function `H : BlockPayload → List Char` from the structured data that the
  program serializes (JSON serialization with sorted keys is injective on
  this data, so passing the structure instead of the string loses nothing).
  Theorems that need tamper-detection take the collision-free idealization
  `Function.Injective H` as an explicit hypothesis; witnesses instantiate
  `H` with the concrete injective function `H₀` defined below.  Python
  strings are modelled as `List Char` (`str.startswith` is
  `List.isPrefixOf`).

* **Mutable state.**  Python `Wallet` objects are shared mutable references;
  a wallet is identified by its key, and all balances live in a store
  `Bal : ℕ → ℚ` threaded explicitly.  The blockchain's wallet registry
  (a dict keyed by the injective PEM export) is the list of registered keys.
  `time.time()` values are ambient inputs, passed as explicit `ℕ` arguments.
  `random.choice(lst)` is modelled by an explicit argument `pick` selecting
  `lst[pick % len(lst)]` (and raising `IndexError` on an empty list, as
  `random.choice` does).

* **Exceptions and nontermination.**  Fallible code returns
  `Except PyError _`.  The unbounded proof-of-work loop `mine_block` takes
  explicit fuel and returns `none` when the fuel is exhausted; claims about
  "calls on which sealing returns" are stated on the `some`/`.ok` results.
-/

namespace SimpleCoin

/-- Error outcomes of the embedded Python code.  `indexError` models
`IndexError` (empty-list indexing / `random.choice` on `[]`),
`attributeError` models `AttributeError` (calling a method on `None`), and
`outOfFuel` marks an aborted (in Python: non-terminating so far)
proof-of-work search. -/
inductive PyError where
  | indexError
  | attributeError
  | outOfFuel
deriving DecidableEq

/-- The balance store: every wallet object's `balance` field, indexed by the
wallet's (injectively exported) public key. -/
abbrev Bal := ℕ → ℚ

/-- Write one wallet's balance in the store (`wallet.balance = v`). -/
def updBal (bal : Bal) (k : ℕ) (v : ℚ) : Bal :=
  fun x => if x = k then v else bal x

/-- Round half to even to an integer, as Python's `round` does, written with
plain integer arithmetic (`f` is the floor of `q`, `rem/d` its fractional
part). -/
def roundHalfEven (q : ℚ) : ℤ :=
  let d : ℤ := (q.den : ℤ)
  let f : ℤ := Int.fdiv q.num d
  let rem : ℤ := q.num - f * d
  if 2 * rem < d then f
  else if d < 2 * rem then f + 1
  else if f % 2 = 0 then f else f + 1

/-- Python's `round(q, 8)`: round to 8 fractional decimal digits, ties to
even. -/
def pyRound8 (q : ℚ) : ℚ :=
  (roundHalfEven (q * 100000000) : ℚ) / 100000000

/-- The signed/hashed content of a `Transaction`: exactly the fields that
`Transaction.to_dict` serializes (the signature is not among them). -/
structure TxData where
  sender_public_key : ℕ
  recipient : ℕ
  amount : ℚ
  fee : ℚ
  timestamp : ℕ
deriving DecidableEq

/-- An ECDSA signature, idealized: the signing private key together with the
signed payload. -/
abbrev Sig := ℕ × TxData

/-- `Wallet.sign_transaction`, idealized ECDSA: the signature produced by
private key `priv` over payload `d`. -/
def ecdsa_sign (priv : ℕ) (d : TxData) : Sig := (priv, d)

/-- `Wallet.verify_signature`, idealized ECDSA: verification under public
key `pub` succeeds iff the signature was produced by `pub`'s private key
(= `pub` in this model) over the same payload.  Returns `false`, never
raises, on any mismatch — as the Python `try/except` does. -/
def ecdsa_verify (pub : ℕ) (d : TxData) (sig : Sig) : Bool :=
  decide (sig = (pub, d))

/-- A `Transaction`: its serialized fields plus the signature. -/
structure Transaction where
  data : TxData
  signature : Sig
deriving DecidableEq

/-- `Transaction.__init__`: stores sender/recipient/amount, computes
`fee = round(0.005 * amount, 8)`, records the creation time, and signs the
serialized payload with the sender's key — construction and signing are
atomic. -/
def Transaction.create (sender recipient : ℕ) (amount : ℚ) (timestamp : ℕ) :
    Transaction :=
  let d : TxData :=
    { sender_public_key := sender
      recipient := recipient
      amount := amount
      fee := pyRound8 ((5 : ℚ) / 1000 * amount)
      timestamp := timestamp }
  { data := d, signature := ecdsa_sign sender d }

/-- `Transaction.is_valid(sender_wallet)`: verifies the signature over the
re-serialized payload with the supplied wallet's public key.  When the
supplied wallet is `None` (unresolved registry lookup), the Python attribute
access `sender_wallet.verify_signature` raises `AttributeError`. -/
def Transaction.is_valid (t : Transaction) : Option ℕ → Except PyError Bool
  | none => .error .attributeError
  | some w => .ok (ecdsa_verify w t.data t.signature)

/-- The structured data hashed by `Block.calculate_hash`: exactly the keys of
its `block_data` dict.  `difficulty` and the stored `hash` are *not* hashed;
transactions contribute their serialized payloads (without signatures);
`miner = none` is the genesis sentinel (serialized as `"GENESIS_BLOCK"`,
which is distinct from every PEM key export, hence the `Option` is encoded
injectively). -/
structure BlockPayload where
  index : ℕ
  timestamp : ℕ
  transactions : List TxData
  previous_hash : Option (List Char)
  nonce : ℕ
  miner : Option ℕ
deriving DecidableEq

/-- A `Block` as constructed by `Block.__init__` (with `nonce = 0` and
`hash = None` until sealed). -/
structure Block where
  index : ℕ
  timestamp : ℕ
  transactions : List Transaction
  previous_hash : Option (List Char)
  nonce : ℕ
  difficulty : ℕ
  miner : Option ℕ
  hash : Option (List Char)
deriving DecidableEq

/-- A default block (used only to destructure optional results in concrete
scenarios). -/
def defBlock : Block :=
  { index := 0, timestamp := 0, transactions := [], previous_hash := none
    nonce := 0, difficulty := 0, miner := none, hash := none }

/-- The data `Block.calculate_hash` serializes and hashes. -/
def block_payload (b : Block) : BlockPayload :=
  { index := b.index
    timestamp := b.timestamp
    transactions := b.transactions.map Transaction.data
    previous_hash := b.previous_hash
    nonce := b.nonce
    miner := b.miner }

/-- `Block.calculate_hash`: SHA-256 of the sorted-keys JSON dump of
`block_payload`, with the serialize-and-digest pipeline abstracted as `H`. -/
def Block.calculate_hash (H : BlockPayload → List Char) (b : Block) :
    List Char :=
  H (block_payload b)

/-- The body of `Block.mine_block`: store `calculate_hash()` into `hash`;
if it starts with the required prefix return it, otherwise increment `nonce`
and retry.  `fuel` bounds the unbounded Python loop; `none` means the fuel
ran out.  On success, returns the winning hash (the Python return value)
together with the final block state. -/
def mineLoop (H : BlockPayload → List Char) (pre : List Char) :
    ℕ → Block → Option (List Char × Block)
  | 0, _ => none
  | fuel + 1, b =>
    let h0 := Block.calculate_hash H b
    if pre.isPrefixOf h0 then some (h0, { b with hash := some h0 })
    else mineLoop H pre fuel { b with hash := some h0, nonce := b.nonce + 1 }

/-- `Block.mine_block`: search for a nonce whose hash starts with
`difficulty` literal `'0'` characters. -/
def Block.mine_block (H : BlockPayload → List Char) (fuel : ℕ) (b : Block) :
    Option (List Char × Block) :=
  mineLoop H (List.replicate b.difficulty '0') fuel b

/-- The loop body of `Blockchain.is_chain_valid`: for every adjacent pair
`(previous, current)` starting at index 1, check
`current.hash == current.calculate_hash()` and
`current.previous_hash == previous.hash`; return `False` on the first
mismatch.  Index 0 (genesis) is never itself rechecked. -/
def chain_ok (H : BlockPayload → List Char) : List Block → Bool
  | b :: c :: rest =>
    decide (c.hash = some (Block.calculate_hash H c)) &&
    decide (c.previous_hash = b.hash) &&
    chain_ok H (c :: rest)
  | _ => true

/-- The `Blockchain` object's immutable-typed state: the chain, the
difficulty and reward configuration, and the wallet registry (the keys of
the `wallets` dict; the registered wallet objects' balances live in `Bal`).
-/
structure Blockchain where
  chain : List Block
  difficulty : ℕ
  reward : ℚ
  wallets : List ℕ
deriving DecidableEq

/-- `Blockchain.is_chain_valid`. -/
def Blockchain.is_chain_valid (H : BlockPayload → List Char)
    (bc : Blockchain) : Bool :=
  chain_ok H bc.chain

/-- `Blockchain.find_wallet_by_public_key` on a registry: dict lookup by the
injective PEM export; returns the registered wallet (identified by its key)
or `None`. -/
def find_wallet (ws : List ℕ) (pub : ℕ) : Option ℕ :=
  if pub ∈ ws then some pub else none

/-- `Blockchain.find_wallet_by_public_key`. -/
def Blockchain.find_wallet_by_public_key (bc : Blockchain) (pub : ℕ) :
    Option ℕ :=
  find_wallet bc.wallets pub

/-- `Blockchain.register_wallet`: insert into the `wallets` dict keyed by
the PEM export (re-registering the same wallet is a no-op since the key
determines the wallet object). -/
def Blockchain.register_wallet (bc : Blockchain) (w : ℕ) : Blockchain :=
  if w ∈ bc.wallets then bc else { bc with wallets := bc.wallets ++ [w] }

/-- `Blockchain.create_genesis_block`: build `Block(0, [], "0", difficulty,
None)`, seal it, and append it to the chain.  The Python `initialize()`
method does nothing but await this, so it is embedded as this function. -/
def Blockchain.create_genesis_block (H : BlockPayload → List Char)
    (fuel : ℕ) (bc : Blockchain) (now : ℕ) : Option Blockchain :=
  let genesis : Block :=
    { index := 0, timestamp := now, transactions := []
      previous_hash := some ['0'], nonce := 0, difficulty := bc.difficulty
      miner := none, hash := none }
  match Block.mine_block H fuel genesis with
  | some hb => some { bc with chain := bc.chain ++ [hb.2] }
  | none => none

/-- `random.choice(miner_wallets)`: raises `IndexError` on an empty list,
otherwise picks some element (which one is the ambient input `pick`). -/
def choose_miner : List ℕ → ℕ → Option ℕ
  | [], _ => none
  | m :: ms, pick => some ((m :: ms).getD (pick % (ms.length + 1)) m)

/-- The `total_fees` generator in `add_block`:
`sum(t.fee for t in transactions if t.is_valid(find_wallet(t.sender)))`,
evaluated left to right; the first transaction whose registry lookup yields
`None` raises `AttributeError` out of the whole sum. -/
def total_fees_except (ws : List ℕ) : List Transaction → Except PyError ℚ
  | [] => .ok 0
  | t :: ts =>
    match t.is_valid (find_wallet ws t.data.sender_public_key) with
    | .error e => .error e
    | .ok v =>
      match total_fees_except ws ts with
      | .error e => .error e
      | .ok rest => .ok ((if v then t.data.fee else 0) + rest)

/-- The balance-update loop at the end of `add_block`: for each transaction
that passes `is_valid` against its resolved sender, debit the sender by
`amount + fee` (if registered) and credit the recipient by `amount` (if
registered). -/
def update_balances (ws : List ℕ) : List Transaction → Bal → Except PyError Bal
  | [], bal => .ok bal
  | t :: ts, bal =>
    match t.is_valid (find_wallet ws t.data.sender_public_key) with
    | .error e => .error e
    | .ok v =>
      if v then
        let bal1 :=
          match find_wallet ws t.data.sender_public_key with
          | some s => updBal bal s (bal s - (t.data.amount + t.data.fee))
          | none => bal
        let bal2 :=
          match find_wallet ws t.data.recipient with
          | some r => updBal bal1 r (bal1 r + t.data.amount)
          | none => bal1
        update_balances ws ts bal2
      else update_balances ws ts bal

/-- `Blockchain.add_block`, step for step: read `chain[-1].hash` (raises
`IndexError` on an empty chain), pick a miner with `random.choice` (raises
`IndexError` on an empty candidate list), compute `total_fees` (may raise
`AttributeError`, see `Transaction.is_valid`), construct the new block at
index `len(chain)`, seal it, append it, credit the miner with
`reward + total_fees`, then run the balance-update loop. -/
def Blockchain.add_block (H : BlockPayload → List Char) (fuel : ℕ)
    (bc : Blockchain) (bal : Bal) (txs : List Transaction)
    (miner_wallets : List ℕ) (pick : ℕ) (now : ℕ) :
    Except PyError (Blockchain × Bal) :=
  match bc.chain.getLast? with
  | none => .error .indexError
  | some lastB =>
    match choose_miner miner_wallets pick with
    | none => .error .indexError
    | some miner =>
      match total_fees_except bc.wallets txs with
      | .error e => .error e
      | .ok fees =>
        let newBlock : Block :=
          { index := bc.chain.length, timestamp := now, transactions := txs
            previous_hash := lastB.hash, nonce := 0
            difficulty := bc.difficulty, miner := some miner, hash := none }
        match Block.mine_block H fuel newBlock with
        | none => .error .outOfFuel
        | some hb =>
          let bc' : Blockchain := { bc with chain := bc.chain ++ [hb.2] }
          let bal1 := updBal bal miner (bal miner + (bc.reward + fees))
          match update_balances bc.wallets txs bal1 with
          | .error e => .error e
          | .ok bal2 => .ok (bc', bal2)

/-- The pending `Pool`. -/
structure Pool where
  transactions : List Transaction
deriving DecidableEq

/-- `Pool.add_transaction(transaction, sender_wallet)`: append iff
`amount > 0`, `sender != recipient`, and
`sender_wallet.balance >= amount + fee`.  The Python method has no `return`
statement, so its return value is `None`; the second component models that
returned value. -/
def Pool.add_transaction (p : Pool) (t : Transaction) (sender_balance : ℚ) :
    Pool × Option Bool :=
  if 0 < t.data.amount ∧ t.data.sender_public_key ≠ t.data.recipient then
    if t.data.amount + t.data.fee ≤ sender_balance then
      ({ transactions := p.transactions ++ [t] }, none)
    else (p, none)
  else (p, none)

/-- The pool-admission rule in the spec's words (§4.5): accept iff
`amount > 0`, `sender ≠ recipient`, and the claimed sender balance covers
`amount + fee`; used to compare the code's `Pool.add_transaction` against
the spec. -/
def admit_spec (p : Pool) (t : Transaction) (sender_balance : ℚ) : Pool :=
  if 0 < t.data.amount ∧ t.data.sender_public_key ≠ t.data.recipient ∧
      t.data.amount + t.data.fee ≤ sender_balance then
    { transactions := p.transactions ++ [t] }
  else p

/-- A transaction "passes validity and sender resolution" in `add_block`:
its sender is registered and the signature verifies under the registered
wallet's key. -/
def tx_resolved_valid (ws : List ℕ) (t : Transaction) : Bool :=
  match find_wallet ws t.data.sender_public_key with
  | some w => ecdsa_verify w t.data t.signature
  | none => false

/-- The `total_fees` value of a successful `add_block`: the fee sum over
transactions that pass validity and sender resolution. -/
def fees_spec (ws : List ℕ) (txs : List Transaction) : ℚ :=
  (txs.map (fun t => if tx_resolved_valid ws t then t.data.fee else 0)).sum

/-- The net balance change wallet `k` receives from one confirmed
transaction: if it passes validity and resolution, its registered sender is
debited `amount + fee` and its registered recipient is credited `amount`
(an unregistered recipient is credited nowhere). -/
def tx_delta (ws : List ℕ) (t : Transaction) (k : ℕ) : ℚ :=
  if tx_resolved_valid ws t then
    (if find_wallet ws t.data.sender_public_key = some k then
      -(t.data.amount + t.data.fee) else 0) +
    (if find_wallet ws t.data.recipient = some k then t.data.amount else 0)
  else 0

/-- The accumulated per-wallet balance change of a transaction batch. -/
def txs_delta (ws : List ℕ) (txs : List Transaction) (k : ℕ) : ℚ :=
  (txs.map (fun t => tx_delta ws t k)).sum

/-- Ledgers reachable by the program: a freshly constructed `Blockchain`
after `initialize()`, followed by any interleaving of wallet registrations
and *successful* `add_block` calls (no external mutation of stored
blocks). -/
inductive Reached (H : BlockPayload → List Char) : Blockchain → Bal → Prop
  | init (d : ℕ) (r : ℚ) (fuel now : ℕ) (bc : Blockchain) (bal : Bal) :
      Blockchain.create_genesis_block H fuel ⟨[], d, r, []⟩ now = some bc →
      Reached H bc bal
  | register (bc : Blockchain) (bal : Bal) (w : ℕ) :
      Reached H bc bal → Reached H (bc.register_wallet w) bal
  | step (bc : Blockchain) (bal : Bal) (txs : List Transaction)
      (ms : List ℕ) (pick now fuel : ℕ) (bc' : Blockchain) (bal' : Bal) :
      Reached H bc bal →
      Blockchain.add_block H fuel bc bal txs ms pick now = .ok (bc', bal') →
      Reached H bc' bal'

/-!
## A concrete injective hash

`H₀` is an executable, provably injective instance of the abstract
serialize-and-digest pipeline `H`, used to instantiate theorems on concrete
inputs.  Every `H₀` output starts with four `'0'` characters, so
proof-of-work at difficulty ≤ 4 succeeds at nonce 0, keeping concrete
evaluation small.  Each field encoder is prefix-unambiguous: `encNat` is a
terminated unary numeral, embedded strings are length-prefixed, lists are
length-prefixed. -/

/-- Terminated unary numeral. -/
def encNat (n : ℕ) : List Char :=
  List.replicate n 'a' ++ ['b']

/-- Injective code of `ℤ` into `ℕ`. -/
def intCode : ℤ → ℕ
  | .ofNat n => 2 * n
  | .negSucc n => 2 * n + 1

/-- Encode an integer. -/
def encInt (z : ℤ) : List Char := encNat (intCode z)

/-- Encode a rational by numerator and denominator. -/
def encRat (q : ℚ) : List Char := encInt q.num ++ encNat q.den

/-- Encode a transaction payload field by field. -/
def encTx (t : TxData) : List Char :=
  encNat t.sender_public_key ++
    (encNat t.recipient ++
      (encRat t.amount ++ (encRat t.fee ++ encNat t.timestamp)))

/-- Concatenate transaction encodings. -/
def encTxs : List TxData → List Char
  | [] => []
  | t :: ts => encTx t ++ encTxs ts

/-- Length-prefixed transaction list. -/
def encTxList (l : List TxData) : List Char :=
  encNat l.length ++ encTxs l

/-- Encode an optional embedded string (length-prefixed). -/
def encOptStr : Option (List Char) → List Char
  | none => ['B']
  | some s => 'C' :: (encNat s.length ++ s)

/-- Encode an optional miner key. -/
def encOptNat : Option ℕ → List Char
  | none => ['B']
  | some m => 'C' :: encNat m

/-- Encode a whole block payload. -/
def encPayload (p : BlockPayload) : List Char :=
  encNat p.index ++
    (encNat p.timestamp ++
      (encTxList p.transactions ++
        (encOptStr p.previous_hash ++ (encNat p.nonce ++ encOptNat p.miner))))

/-- The concrete hash: four `'0'` characters followed by the injective
payload encoding. -/
def H₀ (p : BlockPayload) : List Char :=
  '0' :: ('0' :: ('0' :: ('0' :: encPayload p)))

/-!
## Concrete scenarios

These states instantiate the claims: `stA` is difficulty-4 genesis plus one
empty mined block; `stB*` replay the spec's end-to-end scenarios A/B at
difficulty 2, reward 50 (wallet 1 = W1, wallet 2 = W2); `stC*` exercise the
double-spend-in-one-block sequence of claim C10. -/

/-- The all-zero balance store (every wallet is created with balance 0). -/
def bal0 : Bal := fun _ => 0

/-- Genesis ledger at the default configuration (difficulty 4, reward 50). -/
def bcG : Blockchain :=
  (Blockchain.create_genesis_block H₀ 1 ⟨[], 4, 50, []⟩ 0).getD ⟨[], 4, 50, []⟩

/-- `bcG` with wallet 1 registered. -/
def bcG1 : Blockchain := bcG.register_wallet 1

/-- State after one successful empty `add_block` mined by wallet 1. -/
def stA : Blockchain × Bal :=
  ((Blockchain.add_block H₀ 1 bcG1 bal0 [] [1] 0 1).toOption).getD (bcG1, bal0)

/-- Scenario B configuration: difficulty 2, reward 50. -/
def bcB0 : Blockchain := ⟨[], 2, 50, []⟩

/-- Scenario B after the genesis block is created. -/
def bcB1 : Blockchain := (Blockchain.create_genesis_block H₀ 1 bcB0 0).getD bcB0

/-- Scenario B with wallets 1 and 2 registered. -/
def bcB2 : Blockchain := (bcB1.register_wallet 1).register_wallet 2

/-- Scenario A end state: one empty block mined by wallet 1. -/
def stB : Blockchain × Bal :=
  ((Blockchain.add_block H₀ 1 bcB2 bal0 [] [1] 0 1).toOption).getD (bcB2, bal0)

/-- The scenario-B transaction: W1 sends 10 to W2. -/
def txB : Transaction := Transaction.create 1 2 10 2

/-- Scenario B pool admission of `txB` against W1's current balance. -/
def poolB : Pool × Option Bool := Pool.add_transaction ⟨[]⟩ txB (stB.2 1)

/-- Scenario B end state: the admitted transactions confirmed in a block
mined by wallet 2. -/
def stB3 : Blockchain × Bal :=
  ((Blockchain.add_block H₀ 1 stB.1 stB.2 poolB.1.transactions [2] 0 3).toOption).getD stB

/-- The block at index 1 of the scenario-A chain. -/
def blkB1 : Block := stB.1.chain.getD 1 defBlock

/-- The scenario-A ledger with the stored `difficulty` field of block 1
changed (a stored Block field that `calculate_hash` does not cover). -/
def stBmut : Blockchain :=
  { stB.1 with
    chain := stB.1.chain.set 1 { blkB1 with difficulty := blkB1.difficulty + 1 } }

/-- The genesis block of the scenario-A chain. -/
def blkB0 : Block := stB.1.chain.getD 0 defBlock

/-- The scenario-A ledger with the genesis block's stored `timestamp`
changed (a hashed field — but the validity loop starts at index 1 and never
recomputes the genesis hash). -/
def stBmutG : Blockchain :=
  { stB.1 with
    chain := stB.1.chain.set 0 { blkB0 with timestamp := blkB0.timestamp + 1 } }

/-- A concrete unsealed block (difficulty 2, nonce 0), used to instantiate
the proof-of-work claim. -/
def blkPow : Block :=
  { index := 0, timestamp := 0, transactions := [], previous_hash := some ['0']
    nonce := 0, difficulty := 2, miner := none, hash := none }

/-- The result of sealing `blkPow` with `H₀`. -/
def powRes : List Char × Block :=
  (Block.mine_block H₀ 1 blkPow).getD ([], defBlock)

/-- C10 scenario: two transactions of 30 from W1, each individually covered
by W1's balance of 50 at admission time. -/
def txC1 : Transaction := Transaction.create 1 2 30 4

/-- The second C10 transaction. -/
def txC2 : Transaction := Transaction.create 1 2 30 5

/-- C10: both admissions run against W1's balance at admission time (50). -/
def poolC : Pool × Option Bool :=
  Pool.add_transaction (Pool.add_transaction ⟨[]⟩ txC1 (stB.2 1)).1 txC2 (stB.2 1)

/-- C10 end state: both transactions confirmed in one block mined by
wallet 2. -/
def stC : Blockchain × Bal :=
  ((Blockchain.add_block H₀ 1 stB.1 stB.2 poolC.1.transactions [2] 0 6).toOption).getD stB

/-!
## Theorems

First the generic toolkit: injectivity of `H₀`, the characterization of the
proof-of-work loop, pointwise facts about the chain-validity loop, and the
exact value of the balance-update loop.  Then one theorem per claim.
-/

attribute [local semireducible] Rat.add Rat.mul Rat.inv Rat.sub

theorem encNat_zero : encNat 0 = ['b'] := rfl

theorem encNat_succ (n : ℕ) : encNat (n + 1) = 'a' :: encNat n := by
  simp [encNat, List.replicate_succ]

theorem encNat_cancel : ∀ {n m : ℕ} {r r' : List Char},
    encNat n ++ r = encNat m ++ r' → n = m ∧ r = r' := by
  intro n
  induction n with
  | zero =>
    intro m r r' h
    cases m with
    | zero =>
      simp only [encNat_zero, List.cons_append, List.nil_append,
        List.cons.injEq] at h
      exact ⟨rfl, h.2⟩
    | succ m => simp [encNat_zero, encNat_succ] at h
  | succ n ih =>
    intro m r r' h
    cases m with
    | zero => simp [encNat_zero, encNat_succ] at h
    | succ m =>
      simp only [encNat_succ, List.cons_append, List.cons.injEq] at h
      obtain ⟨h1, h2⟩ := ih h.2
      exact ⟨by omega, h2⟩

theorem intCode_inj {a b : ℤ} (h : intCode a = intCode b) : a = b := by
  cases a with
  | ofNat n =>
    cases b with
    | ofNat m =>
      simp only [intCode] at h
      have hnm : n = m := by omega
      rw [hnm]
    | negSucc m =>
      simp only [intCode] at h
      omega
  | negSucc n =>
    cases b with
    | ofNat m =>
      simp only [intCode] at h
      omega
    | negSucc m =>
      simp only [intCode] at h
      have hnm : n = m := by omega
      rw [hnm]

theorem encRat_cancel {q q' : ℚ} {r r' : List Char}
    (h : encRat q ++ r = encRat q' ++ r') : q = q' ∧ r = r' := by
  simp only [encRat, encInt, List.append_assoc] at h
  obtain ⟨h1, h⟩ := encNat_cancel h
  obtain ⟨h2, h⟩ := encNat_cancel h
  exact ⟨Rat.ext (intCode_inj h1) h2, h⟩

theorem encTx_cancel {t t' : TxData} {r r' : List Char}
    (h : encTx t ++ r = encTx t' ++ r') : t = t' ∧ r = r' := by
  simp only [encTx, List.append_assoc] at h
  obtain ⟨h1, h⟩ := encNat_cancel h
  obtain ⟨h2, h⟩ := encNat_cancel h
  obtain ⟨h3, h⟩ := encRat_cancel h
  obtain ⟨h4, h⟩ := encRat_cancel h
  obtain ⟨h5, h⟩ := encNat_cancel h
  cases t
  cases t'
  simp_all

theorem encTxs_cancel : ∀ {l l' : List TxData} {r r' : List Char},
    l.length = l'.length → encTxs l ++ r = encTxs l' ++ r' →
    l = l' ∧ r = r' := by
  intro l
  induction l with
  | nil =>
    intro l' r r' hlen h
    cases l' with
    | nil => exact ⟨rfl, by simpa [encTxs] using h⟩
    | cons t' ts' => simp at hlen
  | cons t ts ih =>
    intro l' r r' hlen h
    cases l' with
    | nil => simp at hlen
    | cons t' ts' =>
      simp only [encTxs, List.append_assoc] at h
      obtain ⟨h1, h2⟩ := encTx_cancel h
      obtain ⟨h3, h4⟩ := ih (by simpa using hlen) h2
      exact ⟨by rw [h1, h3], h4⟩

theorem encTxList_cancel {l l' : List TxData} {r r' : List Char}
    (h : encTxList l ++ r = encTxList l' ++ r') : l = l' ∧ r = r' := by
  simp only [encTxList, List.append_assoc] at h
  obtain ⟨h1, h2⟩ := encNat_cancel h
  exact encTxs_cancel h1 h2

theorem encOptStr_cancel : ∀ {o o' : Option (List Char)} {r r' : List Char},
    encOptStr o ++ r = encOptStr o' ++ r' → o = o' ∧ r = r' := by
  intro o o' r r' h
  match o, o' with
  | none, none =>
    simp only [encOptStr, List.cons_append, List.nil_append,
      List.cons.injEq] at h
    exact ⟨rfl, h.2⟩
  | none, some s' => simp [encOptStr] at h
  | some s, none => simp [encOptStr] at h
  | some s, some s' =>
    simp only [encOptStr, List.cons_append, List.cons.injEq,
      List.append_assoc] at h
    obtain ⟨-, h⟩ := h
    obtain ⟨h1, h2⟩ := encNat_cancel h
    obtain ⟨h3, h4⟩ := List.append_inj h2 h1
    exact ⟨by rw [h3], h4⟩

theorem encOptNat_cancel : ∀ {o o' : Option ℕ} {r r' : List Char},
    encOptNat o ++ r = encOptNat o' ++ r' → o = o' ∧ r = r' := by
  intro o o' r r' h
  match o, o' with
  | none, none =>
    simp only [encOptNat, List.cons_append, List.nil_append,
      List.cons.injEq] at h
    exact ⟨rfl, h.2⟩
  | none, some m' => simp [encOptNat] at h
  | some m, none => simp [encOptNat] at h
  | some m, some m' =>
    simp only [encOptNat, List.cons_append, List.cons.injEq] at h
    obtain ⟨-, h⟩ := h
    obtain ⟨h1, h2⟩ := encNat_cancel h
    exact ⟨by rw [h1], h2⟩

theorem H₀_injective : Function.Injective H₀ := by
  intro p q h
  simp only [H₀, List.cons.injEq, true_and] at h
  have h' : encPayload p ++ [] = encPayload q ++ [] := by simpa using h
  simp only [encPayload, List.append_assoc] at h'
  obtain ⟨h1, h'⟩ := encNat_cancel h'
  obtain ⟨h2, h'⟩ := encNat_cancel h'
  obtain ⟨h3, h'⟩ := encTxList_cancel h'
  obtain ⟨h4, h'⟩ := encOptStr_cancel h'
  obtain ⟨h5, h'⟩ := encNat_cancel h'
  obtain ⟨h6, -⟩ := encOptNat_cancel h'
  cases p
  cases q
  simp_all

theorem mineLoop_spec (H : BlockPayload → List Char) (pre : List Char) :
    ∀ (fuel : ℕ) (b : Block) (h : List Char) (b' : Block),
      mineLoop H pre fuel b = some (h, b') →
      b'.index = b.index ∧ b'.timestamp = b.timestamp ∧
      b'.transactions = b.transactions ∧
      b'.previous_hash = b.previous_hash ∧
      b'.difficulty = b.difficulty ∧ b'.miner = b.miner ∧
      b'.hash = some h ∧ h = Block.calculate_hash H b' ∧
      pre.isPrefixOf h = true ∧ b.nonce ≤ b'.nonce ∧
      ∀ n, b.nonce ≤ n → n < b'.nonce →
        pre.isPrefixOf (Block.calculate_hash H { b with nonce := n }) = false := by
  intro fuel
  induction fuel with
  | zero =>
    intro b h b' hm
    simp [mineLoop] at hm
  | succ fuel ih =>
    intro b h b' hm
    simp only [mineLoop] at hm
    cases hp : pre.isPrefixOf (Block.calculate_hash H b) with
    | true =>
      simp only [hp, if_true, Option.some.injEq, Prod.mk.injEq] at hm
      obtain ⟨hh, hb⟩ := hm
      subst hh
      subst hb
      refine ⟨rfl, rfl, rfl, rfl, rfl, rfl, rfl, rfl, hp, Nat.le_refl _, ?_⟩
      intro n h1 h2
      simp only at h2
      omega
    | false =>
      simp only [hp, if_false, Bool.false_eq_true] at hm
      obtain ⟨f1, f2, f3, f4, f5, f6, f7, f8, f9, f10, f11⟩ := ih _ h b' hm
      refine ⟨f1, f2, f3, f4, f5, f6, f7, f8, f9, by simp at f10; omega, ?_⟩
      intro n h1 h2
      rcases Nat.eq_or_lt_of_le h1 with heq | hlt
      · subst heq
        exact hp
      · exact f11 n (by simp only; omega) h2

theorem mine_block_eq (H : BlockPayload → List Char) (fuel : ℕ) (b : Block) :
    Block.mine_block H fuel b =
      mineLoop H (List.replicate b.difficulty '0') fuel b := rfl

theorem chain_ok_get (H : BlockPayload → List Char) :
    ∀ (l : List Block), chain_ok H l = true →
      ∀ i, ∀ (hi : i + 1 < l.length),
        (l.get ⟨i + 1, hi⟩).hash =
          some (Block.calculate_hash H (l.get ⟨i + 1, hi⟩)) ∧
        (l.get ⟨i + 1, hi⟩).previous_hash = (l.get ⟨i, by omega⟩).hash := by
  intro l
  induction l with
  | nil =>
    intro hok i hi
    simp at hi
  | cons x tl ih =>
    intro hok i hi
    cases tl with
    | nil => simp at hi
    | cons y tl2 =>
      simp only [chain_ok, Bool.and_eq_true, decide_eq_true_eq] at hok
      obtain ⟨⟨hhash, hlink⟩, hrest⟩ := hok
      cases i with
      | zero => exact ⟨hhash, hlink⟩
      | succ k =>
        have := ih hrest k (by simpa using hi)
        simpa using this

theorem chain_ok_snoc (H : BlockPayload → List Char) :
    ∀ (l : List Block) (lb b : Block), chain_ok H l = true →
      l.getLast? = some lb →
      b.hash = some (Block.calculate_hash H b) →
      b.previous_hash = lb.hash →
      chain_ok H (l ++ [b]) = true := by
  intro l
  induction l with
  | nil =>
    intro lb b _ hl _ _
    simp at hl
  | cons x tl ih =>
    intro lb b hok hl hh hp
    cases tl with
    | nil =>
      simp only [List.getLast?_singleton, Option.some.injEq] at hl
      subst hl
      simp [chain_ok, hh, hp]
    | cons y tl2 =>
      simp only [chain_ok, Bool.and_eq_true, decide_eq_true_eq] at hok
      obtain ⟨⟨hhash, hlink⟩, hrest⟩ := hok
      have hl2 : (y :: tl2).getLast? = some lb := by
        rw [List.getLast?_cons_cons] at hl
        exact hl
      have := ih lb b hrest hl2 hh hp
      simpa [chain_ok, hhash, hlink] using this

theorem find_wallet_eq_some {ws : List ℕ} {p k : ℕ} :
    find_wallet ws p = some k ↔ p ∈ ws ∧ k = p := by
  unfold find_wallet
  split <;> simp_all [eq_comm]

theorem total_fees_except_ok (ws : List ℕ) :
    ∀ (txs : List Transaction) (q : ℚ),
      total_fees_except ws txs = .ok q →
      q = fees_spec ws txs ∧
        ∀ t ∈ txs, (find_wallet ws t.data.sender_public_key).isSome = true := by
  intro txs
  induction txs with
  | nil =>
    intro q h
    simp only [total_fees_except, Except.ok.injEq] at h
    simp [fees_spec, ← h]
  | cons t ts ih =>
    intro q h
    simp only [total_fees_except] at h
    cases hf : find_wallet ws t.data.sender_public_key with
    | none =>
      rw [hf] at h
      simp [Transaction.is_valid] at h
    | some w =>
      rw [hf] at h
      simp only [Transaction.is_valid] at h
      cases hrest : total_fees_except ws ts with
      | error e =>
        rw [hrest] at h
        simp at h
      | ok rest =>
        rw [hrest] at h
        simp only [Except.ok.injEq] at h
        obtain ⟨hq, hall⟩ := ih rest hrest
        constructor
        · rw [← h, hq]
          simp [fees_spec, tx_resolved_valid, hf]
        · intro t' ht'
          rcases List.mem_cons.mp ht' with h1 | h2
          · rw [h1, hf]
            rfl
          · exact hall t' h2

theorem updBal_delta_burn (bal : Bal) (s k : ℕ) (a f : ℚ) :
    updBal bal s (bal s - (a + f)) k =
      bal k + (if s = k then -(a + f) else 0) := by
  simp only [updBal]
  by_cases hks : k = s
  · subst hks
    simp
    ring
  · simp [hks, Ne.symm hks]

theorem updBal_delta (bal : Bal) (s r k : ℕ) (a f : ℚ) :
    updBal (updBal bal s (bal s - (a + f))) r
      (updBal bal s (bal s - (a + f)) r + a) k =
    bal k + ((if s = k then -(a + f) else 0) + (if r = k then a else 0)) := by
  simp only [updBal]
  by_cases hkr : k = r
  · subst hkr
    by_cases hks : k = s
    · subst hks
      simp
      ring
    · simp [hks, Ne.symm hks]
  · by_cases hks : k = s
    · subst hks
      simp [hkr, Ne.symm hkr]
      ring
    · simp [hkr, hks, Ne.symm hkr, Ne.symm hks]

theorem update_balances_ok (ws : List ℕ) :
    ∀ (txs : List Transaction) (bal bal2 : Bal),
      update_balances ws txs bal = .ok bal2 →
      ∀ k, bal2 k = bal k + txs_delta ws txs k := by
  intro txs
  induction txs with
  | nil =>
    intro bal bal2 h k
    simp only [update_balances, Except.ok.injEq] at h
    simp [← h, txs_delta]
  | cons t ts ih =>
    intro bal bal2 h k
    simp only [update_balances] at h
    cases hf : find_wallet ws t.data.sender_public_key with
    | none =>
      rw [hf] at h
      simp [Transaction.is_valid] at h
    | some s =>
      rw [hf] at h
      simp only [Transaction.is_valid] at h
      cases hv : ecdsa_verify s t.data t.signature with
      | false =>
        rw [hv] at h
        simp only [Bool.false_eq_true, if_false] at h
        have hk := ih bal bal2 h k
        rw [hk]
        simp [txs_delta, tx_delta, tx_resolved_valid, hf, hv]
      | true =>
        rw [hv] at h
        simp only [if_true] at h
        have hdelta : txs_delta ws (t :: ts) k =
            tx_delta ws t k + txs_delta ws ts k := by
          simp [txs_delta]
        cases hr : find_wallet ws t.data.recipient with
        | none =>
          rw [hr] at h
          have hk := ih _ bal2 h k
          simp only [] at hk
          rw [hk, hdelta, updBal_delta_burn]
          have htx : tx_delta ws t k = (if s = k then
              -(t.data.amount + t.data.fee) else 0) := by
            simp [tx_delta, tx_resolved_valid, hf, hr, hv]
          rw [htx]
          ring
        | some r =>
          rw [hr] at h
          have hk := ih _ bal2 h k
          simp only [] at hk
          rw [hk, hdelta, updBal_delta]
          have htx : tx_delta ws t k =
              (if s = k then -(t.data.amount + t.data.fee) else 0) +
              (if r = k then t.data.amount else 0) := by
            simp [tx_delta, tx_resolved_valid, hf, hr, hv]
          rw [htx]
          ring

theorem reached_chain_ok (H : BlockPayload → List Char) (bc : Blockchain)
    (bal : Bal) (h : Reached H bc bal) : chain_ok H bc.chain = true := by
  induction h with
  | init d r fuel now bc0 bal0' hinit =>
    simp only [Blockchain.create_genesis_block] at hinit
    split at hinit
    · simp only [Option.some.injEq] at hinit
      rw [← hinit]
      rfl
    · simp at hinit
  | register bc1 bal1 w hr ih =>
    have hchain : (bc1.register_wallet w).chain = bc1.chain := by
      unfold Blockchain.register_wallet
      split <;> rfl
    rw [hchain]
    exact ih
  | step bc1 bal1 txs ms pick now fuel bc' bal' hr hab ih =>
    simp only [Blockchain.add_block] at hab
    cases hlast : bc1.chain.getLast? with
    | none =>
      rw [hlast] at hab
      simp at hab
    | some lastB =>
      rw [hlast] at hab
      cases hch : choose_miner ms pick with
      | none =>
        rw [hch] at hab
        simp at hab
      | some miner =>
        rw [hch] at hab
        cases hfees : total_fees_except bc1.wallets txs with
        | error e =>
          rw [hfees] at hab
          simp at hab
        | ok fees =>
          rw [hfees] at hab
          simp only at hab
          cases hmine : Block.mine_block H fuel
              { index := bc1.chain.length, timestamp := now
                transactions := txs, previous_hash := lastB.hash, nonce := 0
                difficulty := bc1.difficulty, miner := some miner
                hash := none } with
          | none =>
            rw [hmine] at hab
            simp at hab
          | some hb =>
            rw [hmine] at hab
            obtain ⟨hh, mined⟩ := hb
            cases hupd : update_balances bc1.wallets txs
                (updBal bal1 miner (bal1 miner + (bc1.reward + fees))) with
            | error e =>
              rw [hupd] at hab
              simp at hab
            | ok bal2 =>
              rw [hupd] at hab
              simp only [Except.ok.injEq, Prod.mk.injEq] at hab
              obtain ⟨hbc, -⟩ := hab
              rw [← hbc]
              obtain ⟨-, -, -, f4, -, -, f7, f8, -, -, -⟩ :=
                mineLoop_spec H _ fuel _ hh mined hmine
              exact chain_ok_snoc H bc1.chain lastB mined ih hlast
                (by rw [f7, f8]) (by rw [f4])

theorem total_fees_except_unresolved (ws : List ℕ) :
    ∀ (txs : List Transaction),
      (∃ t ∈ txs, find_wallet ws t.data.sender_public_key = none) →
      total_fees_except ws txs = .error .attributeError := by
  intro txs
  induction txs with
  | nil =>
    rintro ⟨t, ht, -⟩
    simp at ht
  | cons t ts ih =>
    rintro ⟨t', ht', hun⟩
    rcases List.mem_cons.mp ht' with rfl | hmem
    · simp [total_fees_except, hun, Transaction.is_valid]
    · simp only [total_fees_except]
      cases hf : find_wallet ws t.data.sender_public_key with
      | none => simp [Transaction.is_valid]
      | some w =>
        simp only [Transaction.is_valid]
        rw [ih ⟨t', hmem, hun⟩]

/-- C1: every ledger obtained by `initialize()` followed by any sequence of
wallet registrations and *successful* `add_block` calls (with no external
mutation of stored blocks) satisfies `is_chain_valid() = true`, and
pointwise: for all `i > 0`, `chain[i].previous_hash = chain[i-1].hash` and
`chain[i].hash` equals the recomputed `calculate_hash` of `chain[i]`. -/
theorem chain_validity_invariant (H : BlockPayload → List Char)
    (bc : Blockchain) (bal : Bal) (h : Reached H bc bal) :
    Blockchain.is_chain_valid H bc = true ∧
    ∀ i, 0 < i → ∀ (hi : i < bc.chain.length),
      (bc.chain.get ⟨i, hi⟩).previous_hash =
        (bc.chain.get ⟨i - 1, by omega⟩).hash ∧
      (bc.chain.get ⟨i, hi⟩).hash =
        some (Block.calculate_hash H (bc.chain.get ⟨i, hi⟩)) := by
  have hok := reached_chain_ok H bc bal h
  refine ⟨hok, ?_⟩
  intro i hpos hi
  obtain ⟨j, rfl⟩ : ∃ j, i = j + 1 := ⟨i - 1, by omega⟩
  have hj := chain_ok_get H bc.chain hok j hi
  exact ⟨hj.2, hj.1⟩

/-- Witness for C1: the concrete ledger `stA` (genesis at difficulty 4 plus
one successful empty `add_block`) is `Reached` and chain-valid. -/
theorem chain_validity_invariant_witness :
    Blockchain.is_chain_valid H₀ stA.1 = true :=
  (chain_validity_invariant H₀ stA.1 stA.2
    (Reached.step bcG1 bal0 [] [1] 0 1 1 stA.1 stA.2
      (Reached.register bcG bal0 1
        (Reached.init 4 50 1 0 bcG bal0 rfl))
      rfl)).1

/-- C2 counterexample: the claim says changing *any* single stored field of
any stored block (naming `difficulty`, a `timestamp` and the genesis
block's fields as examples) makes `is_chain_valid()` false.  But
`calculate_hash` does not cover `difficulty`, and the validity loop starts
at index 1, never recomputing the genesis hash: bumping the stored
`difficulty` of block 1, or the stored `timestamp` of the genesis block, of
the valid two-block chain `stB.1` leaves `is_chain_valid()` true. -/
theorem single_field_tamper_not_detected :
    Blockchain.is_chain_valid H₀ stB.1 = true ∧
    stBmut.chain =
      stB.1.chain.set 1 { blkB1 with difficulty := blkB1.difficulty + 1 } ∧
    { blkB1 with difficulty := blkB1.difficulty + 1 } ≠ blkB1 ∧
    Blockchain.is_chain_valid H₀ stBmut = true ∧
    stBmutG.chain =
      stB.1.chain.set 0 { blkB0 with timestamp := blkB0.timestamp + 1 } ∧
    { blkB0 with timestamp := blkB0.timestamp + 1 } ≠ blkB0 ∧
    Blockchain.is_chain_valid H₀ stBmutG = true := by
  exact ⟨by decide, rfl, by decide, by decide, rfl, by decide, by decide⟩

/-- C2 (amended): changing a stored field of a *non-genesis* block that
participates in its hash (index, timestamp, nonce, miner, previous_hash, or
any serialized transaction field — i.e. any change that alters
`block_payload`), while leaving the stored `hash` field unchanged, makes
`is_chain_valid()` false, under the collision-free idealization that the
hash `H` is injective.  The original "any single stored field" is refuted
by the counterexample: a block's `difficulty` is not hashed, and the
genesis block's `timestamp` is never rechecked (the loop starts at index
1).  The genesis block's stored `hash` field, by contrast, is still
compared against `chain[1].previous_hash`, so not every genesis field
escapes detection — only its hashed payload fields do. -/
theorem tampered_hashed_field_invalidates (H : BlockPayload → List Char)
    (hinj : Function.Injective H) (l : List Block)
    (hok : chain_ok H l = true) (i : ℕ) (hi : 0 < i) (hlen : i < l.length)
    (b' : Block)
    (hpay : block_payload b' ≠ block_payload (l.get ⟨i, hlen⟩))
    (hhash : b'.hash = (l.get ⟨i, hlen⟩).hash) :
    chain_ok H (l.set i b') = false := by
  by_contra hT
  rw [Bool.not_eq_false] at hT
  obtain ⟨j, rfl⟩ : ∃ j, i = j + 1 := ⟨i - 1, by omega⟩
  have hlen' : j + 1 < (l.set (j + 1) b').length := by simpa using hlen
  have hset : (l.set (j + 1) b').get ⟨j + 1, hlen'⟩ = b' := by
    simp [List.get_eq_getElem]
  have h1 := (chain_ok_get H _ hT j hlen').1
  rw [hset] at h1
  have h2 := (chain_ok_get H l hok j hlen).1
  rw [hhash, h2] at h1
  simp only [Block.calculate_hash, Option.some.injEq] at h1
  exact hpay (hinj h1).symm

/-- Witness for the amended C2: bumping the `nonce` of block 1 of the valid
chain `stB.1` (a hashed field, stored hash left unchanged) makes the
validity check fail. -/
theorem tampered_hashed_field_invalidates_witness :
    chain_ok H₀ (stB.1.chain.set 1 { blkB1 with nonce := blkB1.nonce + 1 }) =
      false :=
  tampered_hashed_field_invalidates H₀ H₀_injective stB.1.chain (by decide)
    1 (by decide) (by decide) { blkB1 with nonce := blkB1.nonce + 1 }
    (by decide) (by decide)

/-- C3: the claim says an unresolved-sender transaction is handled by
excluding it while the block is still sealed and appended.  The code instead
aborts: `transaction.is_valid(self.find_wallet_by_public_key(...))` calls a
method on `None`, raising `AttributeError` inside the `total_fees` sum,
before any block is constructed or any state mutated.  (The dead
`if sender_wallet:` guard in the balance loop shows the tolerant behavior
was intended, so this is recorded as a code bug.)  This theorem evaluates
the code at the failing input class. -/
theorem add_block_unresolved_sender_raises (H : BlockPayload → List Char)
    (fuel : ℕ) (bc : Blockchain) (bal : Bal) (txs : List Transaction)
    (ms : List ℕ) (pick now : ℕ) (hchain : bc.chain ≠ []) (hms : ms ≠ [])
    (hun : ∃ t ∈ txs, find_wallet bc.wallets t.data.sender_public_key = none) :
    Blockchain.add_block H fuel bc bal txs ms pick now =
      .error .attributeError := by
  simp only [Blockchain.add_block]
  cases hlast : bc.chain.getLast? with
  | none => exact absurd (List.getLast?_eq_none_iff.mp hlast) hchain
  | some lastB =>
    cases ms with
    | nil => exact absurd rfl hms
    | cons m ms' =>
      rw [total_fees_except_unresolved bc.wallets txs hun]
      simp [choose_miner]

/-- Witness for C3: a transaction whose sender key 7 is not in `stB.1`'s
registry makes `add_block` return `AttributeError`. -/
theorem add_block_unresolved_sender_raises_witness :
    Blockchain.add_block H₀ 1 stB.1 stB.2 [Transaction.create 7 2 10 9]
      [1] 0 9 = .error .attributeError :=
  add_block_unresolved_sender_raises H₀ 1 stB.1 stB.2
    [Transaction.create 7 2 10 9] [1] 0 9 (by decide) (by decide)
    ⟨Transaction.create 7 2 10 9, by decide, by decide⟩

/-- C4: a transaction constructed and signed by the constructor verifies
under the correct sender's key and fails under any other party's key (the
idealized-ECDSA assumption the claim itself states is built into
`ecdsa_verify`). -/
theorem transaction_signature_validity (s r : ℕ) (a : ℚ) (ts : ℕ) (w : ℕ)
    (hw : w ≠ s) :
    (Transaction.create s r a ts).is_valid (some s) = .ok true ∧
    (Transaction.create s r a ts).is_valid (some w) = .ok false := by
  constructor
  · simp [Transaction.create, Transaction.is_valid, ecdsa_verify, ecdsa_sign]
  · simp [Transaction.create, Transaction.is_valid, ecdsa_verify, ecdsa_sign,
      Ne.symm hw]

/-- Witness for C4 at sender 1, other party 3. -/
theorem transaction_signature_validity_witness :
    (Transaction.create 1 2 10 0).is_valid (some 1) = .ok true ∧
    (Transaction.create 1 2 10 0).is_valid (some 3) = .ok false :=
  transaction_signature_validity 1 2 10 0 3 (by decide)

/-- C5: whenever `mine_block` returns on a freshly constructed block
(`nonce = 0`), the returned value is the stored hash, the stored hash equals
`calculate_hash()` recomputed on the final block state, that hash starts
with `difficulty` literal `'0'` characters, and the stored nonce is the
least nonce (searching upward from 0) whose hash satisfies the prefix. -/
theorem mine_block_spec (H : BlockPayload → List Char) (fuel : ℕ)
    (b : Block) (h : List Char) (b' : Block) (h0 : b.nonce = 0)
    (hm : Block.mine_block H fuel b = some (h, b')) :
    b'.hash = some h ∧
    h = Block.calculate_hash H b' ∧
    (List.replicate b'.difficulty '0').isPrefixOf h = true ∧
    (List.replicate b'.difficulty '0').isPrefixOf
      (Block.calculate_hash H { b with nonce := b'.nonce }) = true ∧
    ∀ n, n < b'.nonce →
      (List.replicate b'.difficulty '0').isPrefixOf
        (Block.calculate_hash H { b with nonce := n }) = false := by
  obtain ⟨f1, f2, f3, f4, f5, f6, f7, f8, f9, f10, f11⟩ :=
    mineLoop_spec H (List.replicate b.difficulty '0') fuel b h b' hm
  have hcalc : Block.calculate_hash H { b with nonce := b'.nonce } =
      Block.calculate_hash H b' := by
    simp only [Block.calculate_hash, block_payload]
    rw [f1, f2, f3, f4, f6]
  refine ⟨f7, f8, ?_, ?_, ?_⟩
  · rw [f5]
    exact f9
  · rw [f5, hcalc, ← f8]
    exact f9
  · intro n hn
    rw [f5]
    exact f11 n (by omega) hn

/-- Witness for C5: sealing the concrete block `blkPow` at difficulty 2
with `H₀`. -/
theorem mine_block_spec_witness :
    powRes.2.hash = some powRes.1 ∧
    powRes.1 = Block.calculate_hash H₀ powRes.2 ∧
    (List.replicate powRes.2.difficulty '0').isPrefixOf powRes.1 = true ∧
    (List.replicate powRes.2.difficulty '0').isPrefixOf
      (Block.calculate_hash H₀ { blkPow with nonce := powRes.2.nonce }) =
      true ∧
    ∀ n, n < powRes.2.nonce →
      (List.replicate powRes.2.difficulty '0').isPrefixOf
        (Block.calculate_hash H₀ { blkPow with nonce := n }) = false :=
  mine_block_spec H₀ 1 blkPow powRes.1 powRes.2 rfl rfl

/-- C6: on every successful `add_block`, the selected miner is credited
exactly `reward + total_fees` (fees of transactions passing validity and
sender resolution), each such transaction debits its registered sender by
`amount + fee` and credits its recipient by `amount` only if the recipient
is registered (an unregistered recipient is credited nowhere) — stated as
the exact per-wallet balance delta `txs_delta`. -/
theorem add_block_balance_update (H : BlockPayload → List Char) (fuel : ℕ)
    (bc : Blockchain) (bal : Bal) (txs : List Transaction) (ms : List ℕ)
    (pick now : ℕ) (bc' : Blockchain) (bal' : Bal)
    (h : Blockchain.add_block H fuel bc bal txs ms pick now =
      .ok (bc', bal')) :
    ∃ m, choose_miner ms pick = some m ∧
      ∀ k, bal' k = bal k +
        (if k = m then bc.reward + fees_spec bc.wallets txs else 0) +
        txs_delta bc.wallets txs k := by
  simp only [Blockchain.add_block] at h
  cases hlast : bc.chain.getLast? with
  | none =>
    rw [hlast] at h
    simp at h
  | some lastB =>
    rw [hlast] at h
    cases hch : choose_miner ms pick with
    | none =>
      rw [hch] at h
      simp at h
    | some miner =>
      rw [hch] at h
      cases hfees : total_fees_except bc.wallets txs with
      | error e =>
        rw [hfees] at h
        simp at h
      | ok fees =>
        rw [hfees] at h
        simp only at h
        cases hmine : Block.mine_block H fuel
            { index := bc.chain.length, timestamp := now
              transactions := txs, previous_hash := lastB.hash, nonce := 0
              difficulty := bc.difficulty, miner := some miner
              hash := none } with
        | none =>
          rw [hmine] at h
          simp at h
        | some hb =>
          rw [hmine] at h
          cases hupd : update_balances bc.wallets txs
              (updBal bal miner (bal miner + (bc.reward + fees))) with
          | error e =>
            rw [hupd] at h
            simp at h
          | ok bal2 =>
            rw [hupd] at h
            simp only [Except.ok.injEq, Prod.mk.injEq] at h
            obtain ⟨-, hbal⟩ := h
            subst hbal
            refine ⟨miner, rfl, ?_⟩
            intro k
            have hub := update_balances_ok bc.wallets txs _ bal2 hupd k
            obtain ⟨hfs, -⟩ := total_fees_except_ok bc.wallets txs fees hfees
            rw [hub, hfs]
            simp only [updBal]
            by_cases hk : k = miner
            · subst hk
              simp
            · simp [hk]

/-- Witness for C6: the scenario-B confirmation block (miner wallet 2, one
transaction of 10 from wallet 1). -/
theorem add_block_balance_update_witness :
    ∃ m, choose_miner [2] 0 = some m ∧
      ∀ k, stB3.2 k = stB.2 k +
        (if k = m then
          stB.1.reward + fees_spec stB.1.wallets poolB.1.transactions
        else 0) +
        txs_delta stB.1.wallets poolB.1.transactions k :=
  add_block_balance_update H₀ 1 stB.1 stB.2 poolB.1.transactions [2] 0 3
    stB3.1 stB3.2 rfl

/-- C7: `add_block` with an empty candidate-miner list fails (the
`random.choice` `IndexError`, raised before any mutation; in this
functional embedding the error return carries no new state, so the chain,
every stored block and every balance are those of the unchanged inputs). -/
theorem add_block_empty_miners_fails (H : BlockPayload → List Char)
    (fuel : ℕ) (bc : Blockchain) (bal : Bal) (txs : List Transaction)
    (pick now : ℕ) :
    Blockchain.add_block H fuel bc bal txs [] pick now =
      .error .indexError := by
  simp only [Blockchain.add_block]
  cases hlast : bc.chain.getLast? with
  | none => rfl
  | some lastB => rfl

/-- C8 counterexample: the claim says admission "returns a boolean reporting
whether admission succeeded".  The Python method has no `return` statement:
here a concrete admissible transaction is appended to the pool, yet the
returned value is `None`, not a boolean. -/
theorem pool_admit_returns_none_cex :
    (Pool.add_transaction ⟨[]⟩ txB 100).1.transactions = [txB] ∧
    (Pool.add_transaction ⟨[]⟩ txB 100).2 = none := by
  exact ⟨by decide, rfl⟩

/-- C8 (amended): pool admission appends the transaction iff `amount > 0`,
`sender ≠ recipient`, and the claimed sender balance is at least
`amount + fee`; on rejection the pool is unchanged; the call never raises
(it is total) but returns `None` rather than a success boolean. -/
theorem pool_admission_characterization (p : Pool) (t : Transaction)
    (sender_balance : ℚ) :
    Pool.add_transaction p t sender_balance =
      (admit_spec p t sender_balance, none) := by
  unfold Pool.add_transaction admit_spec
  split_ifs <;> first | rfl | tauto

/-- C9: the stored fee of every constructed transaction is
`round(amount × 0.005, 8)`; for amount 10 the fee is 0.05; replaying the
spec's scenario B (difficulty 2, reward 50) through the embedded pipeline
gives sender balance 39.95 and recipient balance 60.05. -/
theorem fee_formula_and_scenarioB :
    (∀ (s r : ℕ) (a : ℚ) (ts : ℕ),
      (Transaction.create s r a ts).data.fee = pyRound8 (a * (5 / 1000))) ∧
    (Transaction.create 1 2 10 0).data.fee = 5 / 100 ∧
    txB.data.fee = 5 / 100 ∧
    stB.1.reward = 50 ∧
    stB.2 1 = 50 ∧
    poolB.1.transactions = [txB] ∧
    stB3.1.chain.length = 3 ∧
    stB3.2 1 = 3995 / 100 ∧
    stB3.2 2 = 6005 / 100 := by
  refine ⟨?_, by decide, by decide, by decide, by decide, by decide,
    by decide, by decide, by decide⟩
  intro s r a ts
  show pyRound8 ((5 : ℚ) / 1000 * a) = pyRound8 (a * (5 / 1000))
  rw [mul_comm]

/-- C10: confirmation-time debiting is unconditional (no balance check in
`add_block`; the only check is at pool admission, against the balance at
admission time): two transactions of 30 from wallet 1, each individually
admissible against its balance of 50, are both admitted and both confirmed
in one block, driving the registered wallet 1 to the negative balance
−10.30. -/
theorem double_spend_negative_balance :
    txC1.data.amount + txC1.data.fee ≤ stB.2 1 ∧
    txC2.data.amount + txC2.data.fee ≤ stB.2 1 ∧
    poolC.1.transactions = [txC1, txC2] ∧
    stB.2 1 < txC1.data.amount + txC1.data.fee +
      (txC2.data.amount + txC2.data.fee) ∧
    (1 ∈ stB.1.wallets) ∧
    Blockchain.add_block H₀ 1 stB.1 stB.2 poolC.1.transactions [2] 0 6 =
      .ok (stC.1, stC.2) ∧
    stC.2 1 = -(1030 / 100) ∧
    stC.2 1 < 0 := by
  exact ⟨by decide, by decide, by decide, by decide, by decide, rfl,
    by decide, by decide⟩

end SimpleCoin
